import Mathlib

/-!
Shallow embedding of the shlex word-splitting library (src/src/lib.rs).

Bytes are modelled as `Nat` (the code is byte-oriented and oblivious to
UTF-8 high bytes); strings are `List Nat`.  The scanner `Shlex` holds the
remaining input bytes and the 1-based line counter, exactly as the Rust
struct does.  All consumption goes through `next_char`, mirroring the
source.  Parsers return the result together with the scanner state they
leave behind (in Rust the state lives in `&mut self`).

Byte values used below:
  9 tab, 10 newline, 13 CR, 32 space, 34 double quote, 35 hash,
  36 dollar, 38 ampersand, 39 single quote, 40 lparen, 41 rparen,
  42 star, 59 semicolon, 60 lt, 61 equals, 62 gt, 63 question,
  91 lbracket, 92 backslash, 96 backtick, 124 pipe, 126 tilde,
  37 percent.
-/

namespace Shlex4

/-- The error enumeration of the library (lib.rs lines 24-31). -/
inductive Err where
  | EndOfStringBackslash
  | UnclosedDoubleQuote
  | UnclosedSingleQuote
deriving DecidableEq, Repr

/-- The scanner: remaining input bytes plus the line counter
(lib.rs lines 35-39; `in_iter` is the not-yet-consumed suffix). -/
structure Shlex where
  in_iter : List Nat
  line_no : Nat
deriving DecidableEq, Repr

/-- `Shlex::new` (lib.rs lines 42-47): full input, line counter 1. -/
def Shlex.new (inp : List Nat) : Shlex :=
  { in_iter := inp, line_no := 1 }

/-- `next_char` (lib.rs lines 121-125): pop one byte, bumping the line
counter exactly when that byte is a newline. -/
def next_char (s : Shlex) : Option (Nat × Shlex) :=
  match s.in_iter with
  | [] => none
  | c :: rest =>
      some (c, { in_iter := rest
                 line_no := if c = 10 then s.line_no + 1 else s.line_no })

theorem next_char_length {s : Shlex} {c : Nat} {s1 : Shlex}
    (h : next_char s = some (c, s1)) :
    s1.in_iter.length < s.in_iter.length := by
  unfold next_char at h
  cases hs : s.in_iter with
  | nil => rw [hs] at h; simp at h
  | cons a rest =>
      rw [hs] at h
      simp only [Option.some.injEq, Prod.mk.injEq] at h
      rw [← h.2]
      simp

/-- `parse_single` (lib.rs lines 97-119): body of a single-quoted span.
Only `\'` and `\\` are escapes; other `\x` keeps both bytes; `'` closes. -/
def parse_single (s : Shlex) (result : List Nat) :
    Except Err (List Nat) × Shlex :=
  match h1 : next_char s with
  | none => (.error .UnclosedSingleQuote, s)
  | some (ch2, s1) =>
      if ch2 = 92 then
        match h2 : next_char s1 with
        | none => (.error .EndOfStringBackslash, s1)
        | some (ch3, s2) =>
            if ch3 = 39 ∨ ch3 = 92 then
              parse_single s2 (result ++ [ch3])
            else
              parse_single s2 (result ++ [92, ch3])
      else if ch2 = 39 then
        (.ok result, s1)
      else
        parse_single s1 (result ++ [ch2])
termination_by s.in_iter.length
decreasing_by
  · exact Nat.lt_trans (next_char_length h2) (next_char_length h1)
  · exact Nat.lt_trans (next_char_length h2) (next_char_length h1)
  · exact next_char_length h1

/-- `parse_double` (lib.rs lines 70-95): body of a double-quoted span.
`\$`, backslash-backtick, `\"`, `\\` escape; backslash-newline elides;
other `\x` keeps both bytes; `"` closes. -/
def parse_double (s : Shlex) (result : List Nat) :
    Except Err (List Nat) × Shlex :=
  match h1 : next_char s with
  | none => (.error .UnclosedDoubleQuote, s)
  | some (ch2, s1) =>
      if ch2 = 92 then
        match h2 : next_char s1 with
        | none => (.error .EndOfStringBackslash, s1)
        | some (ch3, s2) =>
            if ch3 = 36 ∨ ch3 = 96 ∨ ch3 = 34 ∨ ch3 = 92 then
              parse_double s2 (result ++ [ch3])
            else if ch3 = 10 then
              parse_double s2 result
            else
              parse_double s2 (result ++ [92, ch3])
      else if ch2 = 34 then
        (.ok result, s1)
      else
        parse_double s1 (result ++ [ch2])
termination_by s.in_iter.length
decreasing_by
  · exact Nat.lt_trans (next_char_length h2) (next_char_length h1)
  · exact Nat.lt_trans (next_char_length h2) (next_char_length h1)
  · exact Nat.lt_trans (next_char_length h2) (next_char_length h1)
  · exact next_char_length h1

/-! Step equations for `parse_single`, one per shape of the remaining
input, used as rewrite rules everywhere below. -/

theorem ps_nil (n : Nat) (r : List Nat) :
    parse_single ⟨[], n⟩ r = (.error .UnclosedSingleQuote, ⟨[], n⟩) := by
  rw [parse_single.eq_def]
  rfl

theorem ps_close (rest : List Nat) (n : Nat) (r : List Nat) :
    parse_single ⟨39 :: rest, n⟩ r = (.ok r, ⟨rest, n⟩) := by
  rw [parse_single.eq_def]
  rfl

theorem ps_bs_nil (n : Nat) (r : List Nat) :
    parse_single ⟨[92], n⟩ r = (.error .EndOfStringBackslash, ⟨[], n⟩) := by
  rw [parse_single.eq_def]
  rfl

theorem ps_bs_cons (c : Nat) (rest : List Nat) (n : Nat) (r : List Nat) :
    parse_single ⟨92 :: c :: rest, n⟩ r =
      (if c = 39 ∨ c = 92 then
        parse_single ⟨rest, if c = 10 then n + 1 else n⟩ (r ++ [c])
      else
        parse_single ⟨rest, if c = 10 then n + 1 else n⟩ (r ++ [92, c])) := by
  rw [parse_single.eq_def]
  rfl

theorem ps_other (c : Nat) (rest : List Nat) (n : Nat) (r : List Nat)
    (h92 : c ≠ 92) (h39 : c ≠ 39) :
    parse_single ⟨c :: rest, n⟩ r =
      parse_single ⟨rest, if c = 10 then n + 1 else n⟩ (r ++ [c]) := by
  rw [parse_single.eq_def]
  split
  · next heq => simp [next_char] at heq
  · next ch2 s1 heq =>
      simp only [next_char, Option.some.injEq, Prod.mk.injEq] at heq
      obtain ⟨hc, hs⟩ := heq
      subst hc
      rw [if_neg h92, if_neg h39, ← hs]

/-- `parse_single` only consumes input: the leftover is no longer than
what it started with. -/
theorem parse_single_le_aux (k : Nat) :
    ∀ l : List Nat, l.length ≤ k → ∀ n r,
      (parse_single ⟨l, n⟩ r).2.in_iter.length ≤ l.length := by
  induction k with
  | zero =>
      intro l hl n r
      have : l = [] := List.length_eq_zero.mp (Nat.le_zero.mp hl)
      subst this
      rw [ps_nil]
  | succ k ih =>
      intro l hl n r
      match l with
      | [] => rw [ps_nil]
      | c :: rest =>
          by_cases h92 : c = 92
          · subst h92
            match rest with
            | [] => rw [ps_bs_nil]; simp
            | c2 :: rest2 =>
                rw [ps_bs_cons]
                simp only [List.length_cons] at hl ⊢
                split
                · have := ih rest2 (by omega) (if c2 = 10 then n + 1 else n)
                    (r ++ [c2])
                  omega
                · have := ih rest2 (by omega) (if c2 = 10 then n + 1 else n)
                    (r ++ [92, c2])
                  omega
          · by_cases h39 : c = 39
            · subst h39
              rw [ps_close]
              simp
            · rw [ps_other c rest n r h92 h39]
              simp only [List.length_cons] at hl ⊢
              have := ih rest (by omega) (if c = 10 then n + 1 else n) (r ++ [c])
              omega

theorem parse_single_le (s : Shlex) (r : List Nat) :
    (parse_single s r).2.in_iter.length ≤ s.in_iter.length := by
  have := parse_single_le_aux s.in_iter.length s.in_iter (Nat.le_refl _)
    s.line_no r
  simpa using this

/-! Step equations for `parse_double`. -/

theorem pd_nil (n : Nat) (r : List Nat) :
    parse_double ⟨[], n⟩ r = (.error .UnclosedDoubleQuote, ⟨[], n⟩) := by
  rw [parse_double.eq_def]
  rfl

theorem pd_close (rest : List Nat) (n : Nat) (r : List Nat) :
    parse_double ⟨34 :: rest, n⟩ r = (.ok r, ⟨rest, n⟩) := by
  rw [parse_double.eq_def]
  rfl

theorem pd_bs_nil (n : Nat) (r : List Nat) :
    parse_double ⟨[92], n⟩ r = (.error .EndOfStringBackslash, ⟨[], n⟩) := by
  rw [parse_double.eq_def]
  rfl

theorem pd_bs_cons (c : Nat) (rest : List Nat) (n : Nat) (r : List Nat) :
    parse_double ⟨92 :: c :: rest, n⟩ r =
      (if c = 36 ∨ c = 96 ∨ c = 34 ∨ c = 92 then
        parse_double ⟨rest, if c = 10 then n + 1 else n⟩ (r ++ [c])
      else if c = 10 then
        parse_double ⟨rest, if c = 10 then n + 1 else n⟩ r
      else
        parse_double ⟨rest, if c = 10 then n + 1 else n⟩ (r ++ [92, c])) := by
  rw [parse_double.eq_def]
  rfl

theorem pd_other (c : Nat) (rest : List Nat) (n : Nat) (r : List Nat)
    (h92 : c ≠ 92) (h34 : c ≠ 34) :
    parse_double ⟨c :: rest, n⟩ r =
      parse_double ⟨rest, if c = 10 then n + 1 else n⟩ (r ++ [c]) := by
  rw [parse_double.eq_def]
  split
  · next heq => simp [next_char] at heq
  · next ch2 s1 heq =>
      simp only [next_char, Option.some.injEq, Prod.mk.injEq] at heq
      obtain ⟨hc, hs⟩ := heq
      subst hc
      rw [if_neg h92, if_neg h34, ← hs]

/-- `parse_double` only consumes input. -/
theorem parse_double_le_aux (k : Nat) :
    ∀ l : List Nat, l.length ≤ k → ∀ n r,
      (parse_double ⟨l, n⟩ r).2.in_iter.length ≤ l.length := by
  induction k with
  | zero =>
      intro l hl n r
      have : l = [] := List.length_eq_zero.mp (Nat.le_zero.mp hl)
      subst this
      rw [pd_nil]
  | succ k ih =>
      intro l hl n r
      match l with
      | [] => rw [pd_nil]
      | c :: rest =>
          by_cases h92 : c = 92
          · subst h92
            match rest with
            | [] => rw [pd_bs_nil]; simp
            | c2 :: rest2 =>
                rw [pd_bs_cons]
                simp only [List.length_cons] at hl ⊢
                split
                · have := ih rest2 (by omega) (if c2 = 10 then n + 1 else n)
                    (r ++ [c2])
                  omega
                · split
                  · have := ih rest2 (by omega) (n + 1) r
                    omega
                  · have := ih rest2 (by omega) n (r ++ [92, c2])
                    omega
          · by_cases h34 : c = 34
            · subst h34
              rw [pd_close]
              simp
            · rw [pd_other c rest n r h92 h34]
              simp only [List.length_cons] at hl ⊢
              have := ih rest (by omega) (if c = 10 then n + 1 else n) (r ++ [c])
              omega

theorem parse_double_le (s : Shlex) (r : List Nat) :
    (parse_double s r).2.in_iter.length ≤ s.in_iter.length := by
  have := parse_double_le_aux s.in_iter.length s.in_iter (Nat.le_refl _)
    s.line_no r
  simpa using this

/-- `parse_word` (lib.rs lines 51-68): assemble one word starting from the
already-consumed byte `ch`.  `result` is the accumulator (`Vec` in the
source, empty at the initial call).  Double and single quotes delegate to
the sub-parsers; a bare backslash consumes the next byte (eliding a
newline); space, tab and newline end the word; end-of-input ends the word. -/
def parse_word (ch : Nat) (s : Shlex) (result : List Nat) :
    Except Err (List Nat) × Shlex :=
  if ch = 34 then
    match hd : parse_double s result with
    | (.error e, s1) => (.error e, s1)
    | (.ok result1, s1) =>
        match h2 : next_char s1 with
        | none => (.ok result1, s1)
        | some (ch2, s2) => parse_word ch2 s2 result1
  else if ch = 39 then
    match hs : parse_single s result with
    | (.error e, s1) => (.error e, s1)
    | (.ok result1, s1) =>
        match h2 : next_char s1 with
        | none => (.ok result1, s1)
        | some (ch2, s2) => parse_word ch2 s2 result1
  else if ch = 92 then
    match h1 : next_char s with
    | none => (.error .EndOfStringBackslash, s)
    | some (ch2, s1) =>
        match h2 : next_char s1 with
        | none => (.ok (if ch2 = 10 then result else result ++ [ch2]), s1)
        | some (ch3, s2) =>
            parse_word ch3 s2 (if ch2 = 10 then result else result ++ [ch2])
  else if ch = 32 ∨ ch = 9 ∨ ch = 10 then
    (.ok result, s)
  else
    match h2 : next_char s with
    | none => (.ok (result ++ [ch]), s)
    | some (ch2, s1) => parse_word ch2 s1 (result ++ [ch])
termination_by s.in_iter.length
decreasing_by
  · have hle : s1.in_iter.length ≤ s.in_iter.length := by
      have := parse_double_le s result
      rw [hd] at this
      exact this
    exact Nat.lt_of_lt_of_le (next_char_length h2) hle
  · have hle : s1.in_iter.length ≤ s.in_iter.length := by
      have := parse_single_le s result
      rw [hs] at this
      exact this
    exact Nat.lt_of_lt_of_le (next_char_length h2) hle
  · exact Nat.lt_trans (next_char_length h2) (next_char_length h1)
  · exact next_char_length h2

/-! Step equations for `parse_word`. -/

theorem pw_ws (ch : Nat) (s : Shlex) (r : List Nat)
    (h : ch = 32 ∨ ch = 9 ∨ ch = 10) :
    parse_word ch s r = (.ok r, s) := by
  rcases h with h | h | h <;> subst h <;> (rw [parse_word.eq_def]; rfl)

theorem pw_bs_nil (n : Nat) (r : List Nat) :
    parse_word 92 ⟨[], n⟩ r = (.error .EndOfStringBackslash, ⟨[], n⟩) := by
  rw [parse_word.eq_def]
  rfl

theorem pw_bs_one (c : Nat) (n : Nat) (r : List Nat) :
    parse_word 92 ⟨[c], n⟩ r =
      (.ok (if c = 10 then r else r ++ [c]),
        ⟨[], if c = 10 then n + 1 else n⟩) := by
  rw [parse_word.eq_def]
  rfl

theorem pw_bs_cons (c c2 : Nat) (rest : List Nat) (n : Nat) (r : List Nat) :
    parse_word 92 ⟨c :: c2 :: rest, n⟩ r =
      parse_word c2
        ⟨rest, if c2 = 10 then (if c = 10 then n + 1 else n) + 1
               else if c = 10 then n + 1 else n⟩
        (if c = 10 then r else r ++ [c]) := by
  rw [parse_word.eq_def]
  rfl

theorem pw_other_nil (ch : Nat) (n : Nat) (r : List Nat)
    (h34 : ch ≠ 34) (h39 : ch ≠ 39) (h92 : ch ≠ 92)
    (hws : ¬(ch = 32 ∨ ch = 9 ∨ ch = 10)) :
    parse_word ch ⟨[], n⟩ r = (.ok (r ++ [ch]), ⟨[], n⟩) := by
  rw [parse_word.eq_def]
  rw [if_neg h34, if_neg h39, if_neg h92, if_neg hws]
  rfl

theorem pw_other_cons (ch c : Nat) (rest : List Nat) (n : Nat) (r : List Nat)
    (h34 : ch ≠ 34) (h39 : ch ≠ 39) (h92 : ch ≠ 92)
    (hws : ¬(ch = 32 ∨ ch = 9 ∨ ch = 10)) :
    parse_word ch ⟨c :: rest, n⟩ r =
      parse_word c ⟨rest, if c = 10 then n + 1 else n⟩ (r ++ [ch]) := by
  rw [parse_word.eq_def]
  rw [if_neg h34, if_neg h39, if_neg h92, if_neg hws]
  rfl

theorem pw_dq_err (s : Shlex) (r : List Nat) (e : Err) (s1 : Shlex)
    (h : parse_double s r = (.error e, s1)) :
    parse_word 34 s r = (.error e, s1) := by
  rw [parse_word.eq_def]
  rw [if_pos rfl]
  split
  · next e2 s2 heq =>
      rw [h] at heq
      simp only [Prod.mk.injEq, Except.error.injEq] at heq
      rw [heq.1, heq.2]
  · next r2 s2 heq =>
      rw [h] at heq
      simp at heq

theorem pw_dq_ok_nil (s : Shlex) (r r1 : List Nat) (n : Nat)
    (h : parse_double s r = (.ok r1, ⟨[], n⟩)) :
    parse_word 34 s r = (.ok r1, ⟨[], n⟩) := by
  rw [parse_word.eq_def]
  rw [if_pos rfl]
  split
  · next e2 s2 heq =>
      rw [h] at heq
      simp at heq
  · next r2 s2 heq =>
      rw [h] at heq
      simp only [Prod.mk.injEq, Except.ok.injEq] at heq
      rw [← heq.1, ← heq.2]
      rfl

theorem pw_dq_ok_cons (s : Shlex) (r r1 : List Nat) (c : Nat)
    (rest : List Nat) (n : Nat)
    (h : parse_double s r = (.ok r1, ⟨c :: rest, n⟩)) :
    parse_word 34 s r =
      parse_word c ⟨rest, if c = 10 then n + 1 else n⟩ r1 := by
  rw [parse_word.eq_def]
  rw [if_pos rfl]
  split
  · next e2 s2 heq =>
      rw [h] at heq
      simp at heq
  · next r2 s2 heq =>
      rw [h] at heq
      simp only [Prod.mk.injEq, Except.ok.injEq] at heq
      rw [← heq.1, ← heq.2]
      rfl

theorem pw_sq_err (s : Shlex) (r : List Nat) (e : Err) (s1 : Shlex)
    (h : parse_single s r = (.error e, s1)) :
    parse_word 39 s r = (.error e, s1) := by
  rw [parse_word.eq_def]
  rw [if_neg (by decide), if_pos rfl]
  split
  · next e2 s2 heq =>
      rw [h] at heq
      simp only [Prod.mk.injEq, Except.error.injEq] at heq
      rw [heq.1, heq.2]
  · next r2 s2 heq =>
      rw [h] at heq
      simp at heq

theorem pw_sq_ok_nil (s : Shlex) (r r1 : List Nat) (n : Nat)
    (h : parse_single s r = (.ok r1, ⟨[], n⟩)) :
    parse_word 39 s r = (.ok r1, ⟨[], n⟩) := by
  rw [parse_word.eq_def]
  rw [if_neg (by decide), if_pos rfl]
  split
  · next e2 s2 heq =>
      rw [h] at heq
      simp at heq
  · next r2 s2 heq =>
      rw [h] at heq
      simp only [Prod.mk.injEq, Except.ok.injEq] at heq
      rw [← heq.1, ← heq.2]
      rfl

theorem pw_sq_ok_cons (s : Shlex) (r r1 : List Nat) (c : Nat)
    (rest : List Nat) (n : Nat)
    (h : parse_single s r = (.ok r1, ⟨c :: rest, n⟩)) :
    parse_word 39 s r =
      parse_word c ⟨rest, if c = 10 then n + 1 else n⟩ r1 := by
  rw [parse_word.eq_def]
  rw [if_neg (by decide), if_pos rfl]
  split
  · next e2 s2 heq =>
      rw [h] at heq
      simp at heq
  · next r2 s2 heq =>
      rw [h] at heq
      simp only [Prod.mk.injEq, Except.ok.injEq] at heq
      rw [← heq.1, ← heq.2]
      rfl

/-- `parse_word` only consumes input. -/
theorem parse_word_le_aux (k : Nat) :
    ∀ l : List Nat, l.length ≤ k → ∀ ch n r,
      (parse_word ch ⟨l, n⟩ r).2.in_iter.length ≤ l.length := by
  induction k with
  | zero =>
      intro l hl ch n r
      have hnil : l = [] := List.length_eq_zero.mp (Nat.le_zero.mp hl)
      subst hnil
      by_cases h34 : ch = 34
      · subst h34
        rw [pw_dq_err _ _ _ _ (pd_nil n r)]
      · by_cases h39 : ch = 39
        · subst h39
          rw [pw_sq_err _ _ _ _ (ps_nil n r)]
        · by_cases h92 : ch = 92
          · subst h92
            rw [pw_bs_nil]
          · by_cases hws : ch = 32 ∨ ch = 9 ∨ ch = 10
            · rw [pw_ws ch _ r hws]
            · rw [pw_other_nil ch n r h34 h39 h92 hws]
  | succ k ih =>
      intro l hl ch n r
      by_cases h34 : ch = 34
      · subst h34
        cases hpd : parse_double ⟨l, n⟩ r with
        | mk res s1 =>
            have hle : s1.in_iter.length ≤ l.length := by
              have := parse_double_le ⟨l, n⟩ r
              rw [hpd] at this
              exact this
            obtain ⟨l1, n1⟩ := s1
            cases res with
            | error e => rw [pw_dq_err _ _ _ _ hpd]; exact hle
            | ok r1 =>
                cases hl1 : l1 with
                | nil =>
                    rw [hl1] at hpd
                    rw [pw_dq_ok_nil _ _ _ _ hpd]
                    simp
                | cons c rest =>
                    rw [hl1] at hpd hle
                    rw [pw_dq_ok_cons _ _ _ _ _ _ hpd]
                    have := ih rest (by simp at hle; omega) c
                      (if c = 10 then n1 + 1 else n1) r1
                    simp at hle
                    omega
      · by_cases h39 : ch = 39
        · subst h39
          cases hps : parse_single ⟨l, n⟩ r with
          | mk res s1 =>
              have hle : s1.in_iter.length ≤ l.length := by
                have := parse_single_le ⟨l, n⟩ r
                rw [hps] at this
                exact this
              obtain ⟨l1, n1⟩ := s1
              cases res with
              | error e => rw [pw_sq_err _ _ _ _ hps]; exact hle
              | ok r1 =>
                  cases hl1 : l1 with
                  | nil =>
                      rw [hl1] at hps
                      rw [pw_sq_ok_nil _ _ _ _ hps]
                      simp
                  | cons c rest =>
                      rw [hl1] at hps hle
                      rw [pw_sq_ok_cons _ _ _ _ _ _ hps]
                      have := ih rest (by simp at hle; omega) c
                        (if c = 10 then n1 + 1 else n1) r1
                      simp at hle
                      omega
        · by_cases h92 : ch = 92
          · subst h92
            match l with
            | [] => rw [pw_bs_nil]
            | [c] => rw [pw_bs_one]; simp
            | c :: c2 :: rest =>
                rw [pw_bs_cons]
                simp only [List.length_cons] at hl ⊢
                have := ih rest (by omega) c2
                  (if c2 = 10 then (if c = 10 then n + 1 else n) + 1
                   else if c = 10 then n + 1 else n)
                  (if c = 10 then r else r ++ [c])
                omega
          · by_cases hws : ch = 32 ∨ ch = 9 ∨ ch = 10
            · rw [pw_ws ch _ r hws]
            · match l with
              | [] => rw [pw_other_nil ch n r h34 h39 h92 hws]
              | c :: rest =>
                  rw [pw_other_cons ch c rest n r h34 h39 h92 hws]
                  simp only [List.length_cons] at hl ⊢
                  have := ih rest (by omega) c (if c = 10 then n + 1 else n)
                    (r ++ [ch])
                  omega

theorem parse_word_le (ch : Nat) (s : Shlex) (r : List Nat) :
    (parse_word ch s r).2.in_iter.length ≤ s.in_iter.length := by
  have := parse_word_le_aux s.in_iter.length s.in_iter (Nat.le_refl _)
    ch s.line_no r
  simpa using this

/-- The inner `while` of `Iterator::next` (lib.rs lines 147-149): a `#`
comment consumes bytes up to and including the next newline, or to
end-of-input. -/
def skip_comment (s : Shlex) : Shlex :=
  match h : next_char s with
  | none => s
  | some (ch2, s1) => if ch2 = 10 then s1 else skip_comment s1
termination_by s.in_iter.length
decreasing_by
  exact next_char_length h

theorem sc_nil (n : Nat) : skip_comment ⟨[], n⟩ = ⟨[], n⟩ := by
  rw [skip_comment.eq_def]
  rfl

theorem sc_nl (rest : List Nat) (n : Nat) :
    skip_comment ⟨10 :: rest, n⟩ = ⟨rest, n + 1⟩ := by
  rw [skip_comment.eq_def]
  rfl

theorem sc_other (c : Nat) (rest : List Nat) (n : Nat) (h : c ≠ 10) :
    skip_comment ⟨c :: rest, n⟩ = skip_comment ⟨rest, n⟩ := by
  rw [skip_comment.eq_def]
  split
  · next heq => simp [next_char] at heq
  · next ch2 s1 heq =>
      simp only [next_char, Option.some.injEq, Prod.mk.injEq] at heq
      obtain ⟨hc, hs⟩ := heq
      subst hc
      rw [if_neg h, ← hs]
      simp [if_neg h]

theorem skip_comment_le_aux (k : Nat) :
    ∀ l : List Nat, l.length ≤ k → ∀ n,
      (skip_comment ⟨l, n⟩).in_iter.length ≤ l.length := by
  induction k with
  | zero =>
      intro l hl n
      have hnil : l = [] := List.length_eq_zero.mp (Nat.le_zero.mp hl)
      subst hnil
      rw [sc_nil]
  | succ k ih =>
      intro l hl n
      match l with
      | [] => rw [sc_nil]
      | c :: rest =>
          by_cases h10 : c = 10
          · subst h10
            rw [sc_nl]
            simp
          · rw [sc_other c rest n h10]
            simp only [List.length_cons] at hl ⊢
            have := ih rest (by omega) n
            omega

theorem skip_comment_le (s : Shlex) :
    (skip_comment s).in_iter.length ≤ s.in_iter.length := by
  have := skip_comment_le_aux s.in_iter.length s.in_iter (Nat.le_refl _)
    s.line_no
  simpa using this

/-- The skip-whitespace loop of `Iterator::next` (lib.rs lines 140-159),
entered with the byte `ch` already consumed: space, tab and newline are
skipped; `#` skips a comment; any other byte starts a word, and the
word parser's result is the yielded item. -/
def next_loop (ch : Nat) (s : Shlex) :
    Option (Except Err (List Nat) × Shlex) :=
  if ch = 32 ∨ ch = 9 ∨ ch = 10 then
    match h : next_char s with
    | none => none
    | some (ch2, s1) => next_loop ch2 s1
  else if ch = 35 then
    match h : next_char (skip_comment s) with
    | none => none
    | some (ch2, s1) => next_loop ch2 s1
  else
    some (parse_word ch s [])
termination_by s.in_iter.length
decreasing_by
  · exact next_char_length h
  · exact Nat.lt_of_lt_of_le (next_char_length h) (skip_comment_le s)

/-- `Iterator::next` for `Shlex` (lib.rs lines 140-159): pull one byte;
if there is none the stream is over, otherwise run the skip loop and
possibly a word parse. -/
def shlex_next (s : Shlex) : Option (Except Err (List Nat) × Shlex) :=
  match next_char s with
  | none => none
  | some (ch, s1) => next_loop ch s1

/-! Step equations for `next_loop` and `shlex_next`. -/

theorem nlp_ws_nil (ch : Nat) (n : Nat) (h : ch = 32 ∨ ch = 9 ∨ ch = 10) :
    next_loop ch ⟨[], n⟩ = none := by
  rw [next_loop.eq_def, if_pos h]
  rfl

theorem nlp_ws_cons (ch c : Nat) (rest : List Nat) (n : Nat)
    (h : ch = 32 ∨ ch = 9 ∨ ch = 10) :
    next_loop ch ⟨c :: rest, n⟩ =
      next_loop c ⟨rest, if c = 10 then n + 1 else n⟩ := by
  rw [next_loop.eq_def, if_pos h]
  rfl

theorem nlp_hash_nil (s : Shlex) (m : Nat) (hsc : skip_comment s = ⟨[], m⟩) :
    next_loop 35 s = none := by
  rw [next_loop.eq_def, if_neg (by decide), if_pos rfl]
  split
  · rfl
  · next ch2 s1 heq =>
      rw [hsc] at heq
      simp [next_char] at heq

theorem nlp_hash_cons (s : Shlex) (c : Nat) (rest : List Nat) (m : Nat)
    (hsc : skip_comment s = ⟨c :: rest, m⟩) :
    next_loop 35 s = next_loop c ⟨rest, if c = 10 then m + 1 else m⟩ := by
  rw [next_loop.eq_def, if_neg (by decide), if_pos rfl]
  split
  · next heq =>
      rw [hsc] at heq
      simp [next_char] at heq
  · next ch2 s1 heq =>
      rw [hsc] at heq
      simp only [next_char, Option.some.injEq, Prod.mk.injEq] at heq
      obtain ⟨hc, hs⟩ := heq
      subst hc
      rw [← hs]

theorem nlp_word (ch : Nat) (s : Shlex)
    (hws : ¬(ch = 32 ∨ ch = 9 ∨ ch = 10)) (h35 : ch ≠ 35) :
    next_loop ch s = some (parse_word ch s []) := by
  rw [next_loop.eq_def, if_neg hws, if_neg h35]

theorem next_loop_le_aux (k : Nat) :
    ∀ l : List Nat, l.length ≤ k → ∀ ch n r s1,
      next_loop ch ⟨l, n⟩ = some (r, s1) →
      s1.in_iter.length ≤ l.length := by
  induction k with
  | zero =>
      intro l hl ch n r s1 h
      have hnil : l = [] := List.length_eq_zero.mp (Nat.le_zero.mp hl)
      subst hnil
      by_cases hws : ch = 32 ∨ ch = 9 ∨ ch = 10
      · rw [nlp_ws_nil ch n hws] at h
        cases h
      · by_cases h35 : ch = 35
        · subst h35
          rw [nlp_hash_nil _ n (sc_nil n)] at h
          cases h
        · rw [nlp_word ch _ hws h35] at h
          have hle := parse_word_le ch ⟨[], n⟩ []
          cases h2 : parse_word ch ⟨[], n⟩ [] with
          | mk res s2 =>
              rw [h2] at h hle
              cases h
              exact hle
  | succ k ih =>
      intro l hl ch n r s1 h
      by_cases hws : ch = 32 ∨ ch = 9 ∨ ch = 10
      · match l with
        | [] =>
            rw [nlp_ws_nil ch n hws] at h
            cases h
        | c :: rest =>
            rw [nlp_ws_cons ch c rest n hws] at h
            simp only [List.length_cons] at hl ⊢
            have := ih rest (by omega) c (if c = 10 then n + 1 else n) r s1 h
            omega
      · by_cases h35 : ch = 35
        · subst h35
          have hscle := skip_comment_le ⟨l, n⟩
          cases hsc : skip_comment ⟨l, n⟩ with
          | mk l2 m =>
              rw [hsc] at hscle
              simp only at hscle
              match l2 with
              | [] =>
                  rw [nlp_hash_nil _ m hsc] at h
                  cases h
              | c :: rest =>
                  rw [nlp_hash_cons _ c rest m hsc] at h
                  simp only [List.length_cons] at hscle
                  have := ih rest (by omega) c (if c = 10 then m + 1 else m)
                    r s1 h
                  omega
        · rw [nlp_word ch _ hws h35] at h
          have hle := parse_word_le ch ⟨l, n⟩ []
          cases h2 : parse_word ch ⟨l, n⟩ [] with
          | mk res s2 =>
              rw [h2] at h hle
              cases h
              exact hle

theorem next_loop_le {ch : Nat} {s s1 : Shlex} {r : Except Err (List Nat)}
    (h : next_loop ch s = some (r, s1)) :
    s1.in_iter.length ≤ s.in_iter.length := by
  exact next_loop_le_aux s.in_iter.length s.in_iter (Nat.le_refl _)
    ch s.line_no r s1 (by
      cases s
      exact h)

/-- A yielded item consumed at least one byte. -/
theorem shlex_next_lt {s s1 : Shlex} {r : Except Err (List Nat)}
    (h : shlex_next s = some (r, s1)) :
    s1.in_iter.length < s.in_iter.length := by
  unfold shlex_next at h
  cases hnc : next_char s with
  | none => rw [hnc] at h; cases h
  | some v =>
      obtain ⟨ch, s2⟩ := v
      rw [hnc] at h
      exact Nat.lt_of_le_of_lt (next_loop_le h) (next_char_length hnc)

theorem shlex_next_nil (n : Nat) : shlex_next ⟨[], n⟩ = none := by
  rfl

/-- `split` (lib.rs lines 164-167) collects the word stream, with the
fail-fast semantics of Rust's `collect::<Result<Vec<_>, _>>()`: the
first error is the overall result, otherwise all words in order. -/
def split_go (s : Shlex) : Except Err (List (List Nat)) :=
  match h : shlex_next s with
  | none => .ok []
  | some (.error e, _) => .error e
  | some (.ok w, s1) =>
      match split_go s1 with
      | .error e => .error e
      | .ok ws => .ok (w :: ws)
termination_by s.in_iter.length
decreasing_by
  exact shlex_next_lt h

def split (inp : List Nat) : Except Err (List (List Nat)) :=
  split_go (Shlex.new inp)

/-- The full item sequence of the iterator: repeatedly pull `shlex_next`
until it yields nothing.  This is the word stream of the spec. -/
def items (s : Shlex) : List (Except Err (List Nat)) :=
  match h : shlex_next s with
  | none => []
  | some (r, s1) => r :: items s1
termination_by s.in_iter.length
decreasing_by
  exact shlex_next_lt h

/-! Step equations for `split_go` and `items`. -/

theorem sg_none {s : Shlex} (h : shlex_next s = none) :
    split_go s = .ok [] := by
  rw [split_go.eq_def]
  split
  · rfl
  · next e s1 heq => rw [h] at heq; cases heq
  · next w s1 heq => rw [h] at heq; cases heq

theorem sg_err {s s1 : Shlex} {e : Err}
    (h : shlex_next s = some (.error e, s1)) :
    split_go s = .error e := by
  rw [split_go.eq_def]
  split
  · next heq => rw [h] at heq; cases heq
  · next e2 s2 heq =>
      rw [h] at heq
      simp only [Option.some.injEq, Prod.mk.injEq, Except.error.injEq] at heq
      rw [heq.1]
  · next w s2 heq =>
      rw [h] at heq
      simp at heq

theorem sg_ok_ok {s s1 : Shlex} {w : List Nat} {ws : List (List Nat)}
    (h : shlex_next s = some (.ok w, s1)) (h2 : split_go s1 = .ok ws) :
    split_go s = .ok (w :: ws) := by
  rw [split_go.eq_def]
  split
  · next heq => rw [h] at heq; cases heq
  · next e2 s2 heq =>
      rw [h] at heq
      simp at heq
  · next w2 s2 heq =>
      rw [h] at heq
      simp only [Option.some.injEq, Prod.mk.injEq, Except.ok.injEq] at heq
      rw [← heq.1, ← heq.2, h2]

theorem sg_ok_err {s s1 : Shlex} {w : List Nat} {e : Err}
    (h : shlex_next s = some (.ok w, s1)) (h2 : split_go s1 = .error e) :
    split_go s = .error e := by
  rw [split_go.eq_def]
  split
  · next heq => rw [h] at heq; cases heq
  · next e2 s2 heq =>
      rw [h] at heq
      simp at heq
  · next w2 s2 heq =>
      rw [h] at heq
      simp only [Option.some.injEq, Prod.mk.injEq, Except.ok.injEq] at heq
      rw [← heq.1, ← heq.2, h2]

theorem it_none {s : Shlex} (h : shlex_next s = none) : items s = [] := by
  rw [items.eq_def]
  split
  · rfl
  · next r s1 heq => rw [h] at heq; cases heq

theorem it_some {s s1 : Shlex} {r : Except Err (List Nat)}
    (h : shlex_next s = some (r, s1)) : items s = r :: items s1 := by
  rw [items.eq_def]
  split
  · next heq => rw [h] at heq; cases heq
  · next r2 s2 heq =>
      rw [h] at heq
      simp only [Option.some.injEq, Prod.mk.injEq] at heq
      rw [heq.1, heq.2]

/-- The metacharacter test of `quote` (lib.rs lines 173-177). -/
def mustQuote (c : Nat) : Bool :=
  c == 124 || c == 38 || c == 59 || c == 60 || c == 62 || c == 40 ||
  c == 41 || c == 36 || c == 96 || c == 92 || c == 34 || c == 39 ||
  c == 32 || c == 9 || c == 13 || c == 10 || c == 42 || c == 63 ||
  c == 91 || c == 35 || c == 126 || c == 61 || c == 37

/-- One iteration of the escaping loop of `quote` (lib.rs lines 180-186):
push a backslash before `$`, backtick, `"` or `\`, then push the byte. -/
def escDouble (c : Nat) : List Nat :=
  if c = 36 ∨ c = 96 ∨ c = 34 ∨ c = 92 then [92, c] else [c]

/-- `quote` (lib.rs lines 170-192): empty becomes `""`; a string with a
metacharacter is wrapped in double quotes with the escaping loop applied
to each byte; anything else is returned unchanged. -/
def quote (inp : List Nat) : List Nat :=
  if inp.length = 0 then
    [34, 34]
  else if inp.any mustQuote then
    (inp.foldl (fun out c => out ++ escDouble c) [34]) ++ [34]
  else
    inp

/-- `join` (lib.rs lines 196-201): quote each word and join with single
spaces. -/
def join (words : List (List Nat)) : List Nat :=
  List.intercalate [32] (words.map quote)

theorem quote_fold (w : List Nat) :
    ∀ out : List Nat,
      w.foldl (fun out c => out ++ escDouble c) out =
        out ++ (w.map escDouble).flatten := by
  induction w with
  | nil => intro out; simp
  | cons c w ih =>
      intro out
      simp only [List.foldl_cons, List.map_cons, List.flatten_cons]
      rw [ih]
      simp [List.append_assoc]

/-- Inside double quotes, the escaped rendering of `w` followed by a
closing `"` parses back to exactly `w`, leaving `rest` unread. -/
theorem pd_roundtrip (w : List Nat) :
    ∀ (acc rest : List Nat) (n : Nat),
      parse_double ⟨(w.map escDouble).flatten ++ 34 :: rest, n⟩ acc =
        (.ok (acc ++ w), ⟨rest, n + w.count 10⟩) := by
  induction w with
  | nil =>
      intro acc rest n
      simp only [List.map_nil, List.flatten_nil, List.nil_append,
        List.count_nil, List.append_nil, Nat.add_zero]
      exact pd_close rest n acc
  | cons c w ih =>
      intro acc rest n
      by_cases hesc : c = 36 ∨ c = 96 ∨ c = 34 ∨ c = 92
      · have hc10 : c ≠ 10 := by rcases hesc with h | h | h | h <;> omega
        have hshape : ((c :: w).map escDouble).flatten ++ 34 :: rest =
            92 :: c :: ((w.map escDouble).flatten ++ 34 :: rest) := by
          simp [escDouble, if_pos hesc]
        rw [hshape, pd_bs_cons, if_pos hesc, if_neg hc10, ih]
        simp [List.append_assoc, List.count_cons, hc10]
      · have h92 : c ≠ 92 := by intro h; exact hesc (by omega)
        have h34 : c ≠ 34 := by intro h; exact hesc (by omega)
        have hshape : ((c :: w).map escDouble).flatten ++ 34 :: rest =
            c :: ((w.map escDouble).flatten ++ 34 :: rest) := by
          simp [escDouble, if_neg hesc]
        rw [hshape, pd_other c _ n acc h92 h34, ih]
        by_cases hc10 : c = 10
        · subst hc10
          simp [List.append_assoc, List.count_cons]
          omega
        · simp [List.append_assoc, List.count_cons, hc10, if_neg hc10]

/-- A word of bytes that are special neither to the word parser nor to
the whitespace test parses as itself, consuming all input. -/
theorem pw_plain (rest : List Nat) :
    ∀ (ch : Nat) (acc : List Nat) (n : Nat),
      (ch ∉ ([34, 39, 92, 32, 9, 10] : List Nat)) →
      (∀ c ∈ rest, c ∉ ([34, 39, 92, 32, 9, 10] : List Nat)) →
      parse_word ch ⟨rest, n⟩ acc = (.ok (acc ++ ch :: rest), ⟨[], n⟩) := by
  induction rest with
  | nil =>
      intro ch acc n hch _
      simp only [List.mem_cons, List.mem_singleton] at hch
      push_neg at hch
      obtain ⟨h34, h39, h92, h32, h9, h10⟩ := hch
      rw [pw_other_nil ch n acc h34 h39 h92 (by omega)]
  | cons c rest ih =>
      intro ch acc n hch hrest
      simp only [List.mem_cons, List.mem_singleton] at hch
      push_neg at hch
      obtain ⟨h34, h39, h92, h32, h9, h10⟩ := hch
      have hc := hrest c (List.mem_cons_self c rest)
      have hc10 : c ≠ 10 := by
        intro h
        exact hc (by rw [h]; simp)
      rw [pw_other_cons ch c rest n acc h34 h39 h92 (by omega), if_neg hc10]
      rw [ih c (acc ++ [ch]) n hc
        (fun x hx => hrest x (List.mem_cons_of_mem c hx))]
      simp

/-- Membership form of the metacharacter test. -/
theorem mustQuote_iff (c : Nat) :
    mustQuote c = true ↔
      c ∈ ([124, 38, 59, 60, 62, 40, 41, 36, 96, 92, 34, 39, 32, 9, 13,
        10, 42, 63, 91, 35, 126, 61, 37] : List Nat) := by
  simp [mustQuote]
  omega

/-- The shared round-trip core: splitting the quoted form of any byte
string yields exactly that string, as the only word. -/
theorem split_quote (w : List Nat) : split (quote w) = .ok [w] := by
  by_cases hnil : w = []
  · subst hnil
    have h1 : quote ([] : List Nat) = [34, 34] := by rfl
    rw [h1]
    have hpd : parse_double ⟨[34], 1⟩ [] = (.ok [], ⟨[], 1⟩) :=
      pd_close [] 1 []
    have hpw : parse_word 34 ⟨[34], 1⟩ [] = (.ok [], ⟨[], 1⟩) :=
      pw_dq_ok_nil _ _ _ _ hpd
    have hnext : shlex_next ⟨[34, 34], 1⟩ = some (.ok [], ⟨[], 1⟩) := by
      have h0 : shlex_next ⟨[34, 34], 1⟩ = next_loop 34 ⟨[34], 1⟩ := rfl
      rw [h0, nlp_word 34 _ (by decide) (by decide), hpw]
    unfold split
    unfold Shlex.new
    rw [sg_ok_ok hnext (sg_none (shlex_next_nil 1))]
  · by_cases hmq : w.any mustQuote
    · have hq : quote w = 34 :: ((w.map escDouble).flatten ++ [34]) := by
        unfold quote
        rw [if_neg (by simp [hnil]), if_pos hmq, quote_fold]
        simp
      rw [hq]
      have hpd := pd_roundtrip w [] [] 1
      have hpw : parse_word 34 ⟨(w.map escDouble).flatten ++ [34], 1⟩ [] =
          (.ok w, ⟨[], 1 + w.count 10⟩) := by
        have hpd2 : parse_double ⟨(w.map escDouble).flatten ++ [34], 1⟩ [] =
            (.ok w, ⟨[], 1 + w.count 10⟩) := by
          have : (w.map escDouble).flatten ++ 34 :: ([] : List Nat) =
              (w.map escDouble).flatten ++ [34] := by simp
          rw [← this, hpd]
          simp
        exact pw_dq_ok_nil _ _ _ _ hpd2
      have hnext : shlex_next ⟨34 :: ((w.map escDouble).flatten ++ [34]), 1⟩ =
          some (.ok w, ⟨[], 1 + w.count 10⟩) := by
        have h0 : shlex_next ⟨34 :: ((w.map escDouble).flatten ++ [34]), 1⟩ =
            next_loop 34 ⟨(w.map escDouble).flatten ++ [34], 1⟩ := rfl
        rw [h0, nlp_word 34 _ (by decide) (by decide), hpw]
      unfold split
      unfold Shlex.new
      rw [sg_ok_ok hnext (sg_none (shlex_next_nil _))]
    · have hq : quote w = w := by
        unfold quote
        rw [if_neg (by simp [hnil]), if_neg hmq]
      rw [hq]
      match w, hnil with
      | ch :: rest, _ =>
          have hplain : ∀ c ∈ ch :: rest,
              c ∉ ([34, 39, 92, 32, 9, 10] : List Nat) := by
            intro c hc hmem
            have hcq : mustQuote c = true := by
              simp only [List.mem_cons, List.not_mem_nil, or_false] at hmem
              rcases hmem with h | h | h | h | h | h <;> subst h <;> decide
            exact hmq (List.any_eq_true.mpr ⟨c, hc, hcq⟩)
          have hch := hplain ch (List.mem_cons_self ch rest)
          have hch' : ¬(ch = 32 ∨ ch = 9 ∨ ch = 10) := by
            intro h
            apply hch
            rcases h with h | h | h <;> subst h <;> decide
          have hch35 : ch ≠ 35 := by
            intro h
            subst h
            have : mustQuote 35 = true := by decide
            exact hmq (List.any_eq_true.mpr
              ⟨35, List.mem_cons_self 35 rest, this⟩)
          have hpw : parse_word ch ⟨rest, 1⟩ [] =
              (.ok (ch :: rest), ⟨[], 1⟩) := by
            rw [pw_plain rest ch [] 1 hch
              (fun c hc => hplain c (List.mem_cons_of_mem ch hc))]
            simp
          have hch10 : ch ≠ 10 := by
            intro h
            exact hch (by rw [h]; simp)
          have hnext : shlex_next ⟨ch :: rest, 1⟩ =
              some (.ok (ch :: rest), ⟨[], 1⟩) := by
            have h0 : shlex_next ⟨ch :: rest, 1⟩ =
                next_loop ch ⟨rest, if ch = 10 then 1 + 1 else 1⟩ := rfl
            rw [h0, if_neg hch10, nlp_word ch _ hch' hch35, hpw]
          unfold split
          unfold Shlex.new
          rw [sg_ok_ok hnext (sg_none (shlex_next_nil _))]

/-! Errors are only raised at end-of-input, so the scanner state left
behind by a failed parse has nothing left to read. -/

theorem parse_single_err_nil_aux (k : Nat) :
    ∀ l : List Nat, l.length ≤ k → ∀ n r e s1,
      parse_single ⟨l, n⟩ r = (.error e, s1) → s1.in_iter = [] := by
  induction k with
  | zero =>
      intro l hl n r e s1 h
      have hnil : l = [] := List.length_eq_zero.mp (Nat.le_zero.mp hl)
      subst hnil
      rw [ps_nil] at h
      simp only [Prod.mk.injEq] at h
      rw [← h.2]
  | succ k ih =>
      intro l hl n r e s1 h
      match l with
      | [] =>
          rw [ps_nil] at h
          simp only [Prod.mk.injEq] at h
          rw [← h.2]
      | c :: rest =>
          by_cases h92 : c = 92
          · subst h92
            match rest with
            | [] =>
                rw [ps_bs_nil] at h
                simp only [Prod.mk.injEq] at h
                rw [← h.2]
            | c2 :: rest2 =>
                rw [ps_bs_cons] at h
                simp only [List.length_cons] at hl
                split at h
                · exact ih rest2 (by omega) _ _ e s1 h
                · exact ih rest2 (by omega) _ _ e s1 h
          · by_cases h39 : c = 39
            · subst h39
              rw [ps_close] at h
              simp at h
            · rw [ps_other c rest n r h92 h39] at h
              simp only [List.length_cons] at hl
              exact ih rest (by omega) _ _ e s1 h

theorem parse_single_err_nil {s s1 : Shlex} {r : List Nat} {e : Err}
    (h : parse_single s r = (.error e, s1)) : s1.in_iter = [] := by
  apply parse_single_err_nil_aux s.in_iter.length s.in_iter (Nat.le_refl _)
    s.line_no r e s1
  cases s
  exact h

theorem parse_double_err_nil_aux (k : Nat) :
    ∀ l : List Nat, l.length ≤ k → ∀ n r e s1,
      parse_double ⟨l, n⟩ r = (.error e, s1) → s1.in_iter = [] := by
  induction k with
  | zero =>
      intro l hl n r e s1 h
      have hnil : l = [] := List.length_eq_zero.mp (Nat.le_zero.mp hl)
      subst hnil
      rw [pd_nil] at h
      simp only [Prod.mk.injEq] at h
      rw [← h.2]
  | succ k ih =>
      intro l hl n r e s1 h
      match l with
      | [] =>
          rw [pd_nil] at h
          simp only [Prod.mk.injEq] at h
          rw [← h.2]
      | c :: rest =>
          by_cases h92 : c = 92
          · subst h92
            match rest with
            | [] =>
                rw [pd_bs_nil] at h
                simp only [Prod.mk.injEq] at h
                rw [← h.2]
            | c2 :: rest2 =>
                rw [pd_bs_cons] at h
                simp only [List.length_cons] at hl
                split at h
                · exact ih rest2 (by omega) _ _ e s1 h
                · split at h
                  · exact ih rest2 (by omega) _ _ e s1 h
                  · exact ih rest2 (by omega) _ _ e s1 h
          · by_cases h34 : c = 34
            · subst h34
              rw [pd_close] at h
              simp at h
            · rw [pd_other c rest n r h92 h34] at h
              simp only [List.length_cons] at hl
              exact ih rest (by omega) _ _ e s1 h

theorem parse_double_err_nil {s s1 : Shlex} {r : List Nat} {e : Err}
    (h : parse_double s r = (.error e, s1)) : s1.in_iter = [] := by
  apply parse_double_err_nil_aux s.in_iter.length s.in_iter (Nat.le_refl _)
    s.line_no r e s1
  cases s
  exact h

theorem parse_word_err_nil_aux (k : Nat) :
    ∀ l : List Nat, l.length ≤ k → ∀ ch n r e s1,
      parse_word ch ⟨l, n⟩ r = (.error e, s1) → s1.in_iter = [] := by
  induction k with
  | zero =>
      intro l hl ch n r e s1 h
      have hnil : l = [] := List.length_eq_zero.mp (Nat.le_zero.mp hl)
      subst hnil
      by_cases h34 : ch = 34
      · subst h34
        rw [pw_dq_err _ _ _ _ (pd_nil n r)] at h
        simp only [Prod.mk.injEq] at h
        rw [← h.2]
      · by_cases h39 : ch = 39
        · subst h39
          rw [pw_sq_err _ _ _ _ (ps_nil n r)] at h
          simp only [Prod.mk.injEq] at h
          rw [← h.2]
        · by_cases h92 : ch = 92
          · subst h92
            rw [pw_bs_nil] at h
            simp only [Prod.mk.injEq] at h
            rw [← h.2]
          · by_cases hws : ch = 32 ∨ ch = 9 ∨ ch = 10
            · rw [pw_ws ch _ r hws] at h
              simp at h
            · rw [pw_other_nil ch n r h34 h39 h92 hws] at h
              simp at h
  | succ k ih =>
      intro l hl ch n r e s1 h
      by_cases h34 : ch = 34
      · subst h34
        cases hpd : parse_double ⟨l, n⟩ r with
        | mk res s2 =>
            have hle : s2.in_iter.length ≤ l.length := by
              have := parse_double_le ⟨l, n⟩ r
              rw [hpd] at this
              exact this
            cases res with
            | error e2 =>
                rw [pw_dq_err _ _ _ _ hpd] at h
                simp only [Prod.mk.injEq] at h
                rw [← h.2]
                exact parse_double_err_nil hpd
            | ok r1 =>
                obtain ⟨l2, n2⟩ := s2
                match l2, hpd with
                | [], hpd =>
                    rw [pw_dq_ok_nil _ _ _ _ hpd] at h
                    simp at h
                | c :: rest, hpd =>
                    rw [pw_dq_ok_cons _ _ _ _ _ _ hpd] at h
                    simp only [List.length_cons] at hle
                    exact ih rest (by omega) c _ r1 e s1 h
      · by_cases h39 : ch = 39
        · subst h39
          cases hps : parse_single ⟨l, n⟩ r with
          | mk res s2 =>
              have hle : s2.in_iter.length ≤ l.length := by
                have := parse_single_le ⟨l, n⟩ r
                rw [hps] at this
                exact this
              cases res with
              | error e2 =>
                  rw [pw_sq_err _ _ _ _ hps] at h
                  simp only [Prod.mk.injEq] at h
                  rw [← h.2]
                  exact parse_single_err_nil hps
              | ok r1 =>
                  obtain ⟨l2, n2⟩ := s2
                  match l2, hps with
                  | [], hps =>
                      rw [pw_sq_ok_nil _ _ _ _ hps] at h
                      simp at h
                  | c :: rest, hps =>
                      rw [pw_sq_ok_cons _ _ _ _ _ _ hps] at h
                      simp only [List.length_cons] at hle
                      exact ih rest (by omega) c _ r1 e s1 h
        · by_cases h92 : ch = 92
          · subst h92
            match l with
            | [] =>
                rw [pw_bs_nil] at h
                simp only [Prod.mk.injEq] at h
                rw [← h.2]
            | [c] =>
                rw [pw_bs_one] at h
                simp at h
            | c :: c2 :: rest =>
                rw [pw_bs_cons] at h
                simp only [List.length_cons] at hl
                exact ih rest (by omega) c2 _ _ e s1 h
          · by_cases hws : ch = 32 ∨ ch = 9 ∨ ch = 10
            · rw [pw_ws ch _ r hws] at h
              simp at h
            · match l with
              | [] =>
                  rw [pw_other_nil ch n r h34 h39 h92 hws] at h
                  simp at h
              | c :: rest =>
                  rw [pw_other_cons ch c rest n r h34 h39 h92 hws] at h
                  simp only [List.length_cons] at hl
                  exact ih rest (by omega) c _ _ e s1 h

theorem parse_word_err_nil {ch : Nat} {s s1 : Shlex} {r : List Nat} {e : Err}
    (h : parse_word ch s r = (.error e, s1)) : s1.in_iter = [] := by
  apply parse_word_err_nil_aux s.in_iter.length s.in_iter (Nat.le_refl _)
    ch s.line_no r e s1
  cases s
  exact h

theorem next_loop_err_nil_aux (k : Nat) :
    ∀ l : List Nat, l.length ≤ k → ∀ ch n e s1,
      next_loop ch ⟨l, n⟩ = some (.error e, s1) → s1.in_iter = [] := by
  induction k with
  | zero =>
      intro l hl ch n e s1 h
      have hnil : l = [] := List.length_eq_zero.mp (Nat.le_zero.mp hl)
      subst hnil
      by_cases hws : ch = 32 ∨ ch = 9 ∨ ch = 10
      · rw [nlp_ws_nil ch n hws] at h
        cases h
      · by_cases h35 : ch = 35
        · subst h35
          rw [nlp_hash_nil _ n (sc_nil n)] at h
          cases h
        · rw [nlp_word ch _ hws h35] at h
          cases hpw : parse_word ch ⟨[], n⟩ [] with
          | mk res s2 =>
              rw [hpw] at h
              cases res with
              | error e2 =>
                  simp only [Option.some.injEq, Prod.mk.injEq,
                    Except.error.injEq] at h
                  rw [← h.2]
                  exact parse_word_err_nil hpw
              | ok w => simp at h
  | succ k ih =>
      intro l hl ch n e s1 h
      by_cases hws : ch = 32 ∨ ch = 9 ∨ ch = 10
      · match l with
        | [] =>
            rw [nlp_ws_nil ch n hws] at h
            cases h
        | c :: rest =>
            rw [nlp_ws_cons ch c rest n hws] at h
            simp only [List.length_cons] at hl
            exact ih rest (by omega) c _ e s1 h
      · by_cases h35 : ch = 35
        · subst h35
          have hscle := skip_comment_le ⟨l, n⟩
          cases hsc : skip_comment ⟨l, n⟩ with
          | mk l2 m =>
              rw [hsc] at hscle
              simp only at hscle
              match l2, hsc with
              | [], hsc =>
                  rw [nlp_hash_nil _ m hsc] at h
                  cases h
              | c :: rest, hsc =>
                  rw [nlp_hash_cons _ c rest m hsc] at h
                  simp only [List.length_cons] at hscle
                  exact ih rest (by omega) c _ e s1 h
        · rw [nlp_word ch _ hws h35] at h
          cases hpw : parse_word ch ⟨l, n⟩ [] with
          | mk res s2 =>
              rw [hpw] at h
              cases res with
              | error e2 =>
                  simp only [Option.some.injEq, Prod.mk.injEq,
                    Except.error.injEq] at h
                  rw [← h.2]
                  exact parse_word_err_nil hpw
              | ok w => simp at h

/-- An error item leaves the scanner at end-of-input. -/
theorem shlex_next_err_nil {s s1 : Shlex} {e : Err}
    (h : shlex_next s = some (.error e, s1)) : s1.in_iter = [] := by
  unfold shlex_next at h
  cases hnc : next_char s with
  | none => rw [hnc] at h; cases h
  | some v =>
      obtain ⟨ch, s2⟩ := v
      rw [hnc] at h
      apply next_loop_err_nil_aux s2.in_iter.length s2.in_iter (Nat.le_refl _)
        ch s2.line_no e s1
      cases s2
      exact h

/-- After any error item the stream is over: an error is always the
last item. -/
theorem items_err_last_aux (k : Nat) :
    ∀ s : Shlex, s.in_iter.length ≤ k →
      ∀ pre e post, items s = pre ++ .error e :: post → post = [] := by
  induction k with
  | zero =>
      intro s hs pre e post h
      have hnil : s.in_iter = [] :=
        List.length_eq_zero.mp (Nat.le_zero.mp hs)
      have : shlex_next s = none := by
        unfold shlex_next
        unfold next_char
        rw [hnil]
      rw [it_none this] at h
      exact absurd h.symm (List.append_ne_nil_of_right_ne_nil pre
        (List.cons_ne_nil _ _))
  | succ k ih =>
      intro s hs pre e post h
      cases hnx : shlex_next s with
      | none =>
          rw [it_none hnx] at h
          exact absurd h.symm (List.append_ne_nil_of_right_ne_nil pre
            (List.cons_ne_nil _ _))
      | some v =>
          obtain ⟨r, s1⟩ := v
          have hlt := shlex_next_lt hnx
          rw [it_some hnx] at h
          cases pre with
          | nil =>
              simp only [List.nil_append, List.cons.injEq] at h
              cases r with
              | error e1 =>
                  have h1 : s1.in_iter = [] := shlex_next_err_nil hnx
                  have : shlex_next s1 = none := by
                    unfold shlex_next
                    unfold next_char
                    rw [h1]
                  rw [it_none this] at h
                  exact h.2.symm
              | ok w => simp at h
          | cons p pre2 =>
              simp only [List.cons_append, List.cons.injEq] at h
              exact ih s1 (by omega) pre2 e post h.2

/-- The words carried by the Ok items of an item sequence, in order. -/
def okItems (l : List (Except Err (List Nat))) : List (List Nat) :=
  l.filterMap fun r =>
    match r with
    | .ok w => some w
    | .error _ => none

theorem split_go_all_ok_aux (k : Nat) :
    ∀ s : Shlex, s.in_iter.length ≤ k →
      (∀ r ∈ items s, ∃ w, r = .ok w) →
      split_go s = .ok (okItems (items s)) := by
  induction k with
  | zero =>
      intro s hs _
      have hnil : s.in_iter = [] :=
        List.length_eq_zero.mp (Nat.le_zero.mp hs)
      have hnx : shlex_next s = none := by
        unfold shlex_next
        unfold next_char
        rw [hnil]
      rw [it_none hnx, sg_none hnx]
      rfl
  | succ k ih =>
      intro s hs hall
      cases hnx : shlex_next s with
      | none =>
          rw [it_none hnx, sg_none hnx]
          rfl
      | some v =>
          obtain ⟨r, s1⟩ := v
          have hlt := shlex_next_lt hnx
          have hit := it_some hnx
          cases r with
          | error e =>
              exfalso
              have := hall (.error e) (by rw [hit]; simp)
              obtain ⟨w, hw⟩ := this
              cases hw
          | ok w =>
              have hall1 : ∀ r ∈ items s1, ∃ w, r = .ok w := by
                intro r hr
                exact hall r (by rw [hit]; simp [hr])
              have h1 := ih s1 (by omega) hall1
              rw [sg_ok_ok hnx h1, hit]
              rfl

theorem split_go_first_err_aux (k : Nat) :
    ∀ s : Shlex, s.in_iter.length ≤ k →
      ∀ pre e post, items s = pre ++ .error e :: post →
      (∀ r ∈ pre, ∃ w, r = .ok w) →
      split_go s = .error e := by
  induction k with
  | zero =>
      intro s hs pre e post h _
      have hnil : s.in_iter = [] :=
        List.length_eq_zero.mp (Nat.le_zero.mp hs)
      have hnx : shlex_next s = none := by
        unfold shlex_next
        unfold next_char
        rw [hnil]
      rw [it_none hnx] at h
      exact absurd h.symm (List.append_ne_nil_of_right_ne_nil pre
        (List.cons_ne_nil _ _))
  | succ k ih =>
      intro s hs pre e post h hpre
      cases hnx : shlex_next s with
      | none =>
          rw [it_none hnx] at h
          exact absurd h.symm (List.append_ne_nil_of_right_ne_nil pre
            (List.cons_ne_nil _ _))
      | some v =>
          obtain ⟨r, s1⟩ := v
          have hlt := shlex_next_lt hnx
          rw [it_some hnx] at h
          cases pre with
          | nil =>
              simp only [List.nil_append, List.cons.injEq] at h
              rw [h.1] at hnx
              exact sg_err hnx
          | cons p pre2 =>
              simp only [List.cons_append, List.cons.injEq] at h
              obtain ⟨w, hw⟩ := hpre p (List.mem_cons_self p pre2)
              rw [hw] at h
              rw [h.1] at hnx
              have h2 := ih s1 (by omega) pre2 e post h.2
                (fun r hr => hpre r (List.mem_cons_of_mem p hr))
              exact sg_ok_err hnx h2

/-- A comment with no newline consumes everything. -/
theorem sc_no_nl (pre : List Nat) :
    ∀ n, 10 ∉ pre → skip_comment ⟨pre, n⟩ = ⟨[], n⟩ := by
  induction pre with
  | nil => intro n _; exact sc_nil n
  | cons c pre ih =>
      intro n hmem
      have hc : c ≠ 10 := by
        intro h
        exact hmem (by rw [h]; exact List.mem_cons_self 10 pre)
      rw [sc_other c pre n hc]
      exact ih n (fun h => hmem (List.mem_cons_of_mem c h))

/-- A comment consumes up to and including the first newline. -/
theorem sc_to_nl (pre : List Nat) :
    ∀ rest n, 10 ∉ pre →
      skip_comment ⟨pre ++ 10 :: rest, n⟩ = ⟨rest, n + 1⟩ := by
  induction pre with
  | nil => intro rest n _; exact sc_nl rest n
  | cons c pre ih =>
      intro rest n hmem
      have hc : c ≠ 10 := by
        intro h
        exact hmem (by rw [h]; exact List.mem_cons_self 10 pre)
      rw [List.cons_append, sc_other c _ n hc]
      exact ih rest n (fun h => hmem (List.mem_cons_of_mem c h))

/-- Pulling an item through a leading whitespace byte is pulling it from
the rest of the input (with the line counter advanced on a newline). -/
theorem shlex_next_ws (c : Nat) (bytes : List Nat) (n : Nat)
    (h : c = 32 ∨ c = 9 ∨ c = 10) :
    shlex_next ⟨c :: bytes, n⟩ =
      shlex_next ⟨bytes, if c = 10 then n + 1 else n⟩ := by
  have h0 : shlex_next ⟨c :: bytes, n⟩ =
      next_loop c ⟨bytes, if c = 10 then n + 1 else n⟩ := by
    unfold shlex_next
    unfold next_char
    simp
  rw [h0]
  match bytes with
  | [] =>
      rw [nlp_ws_nil c _ h, shlex_next_nil]
  | c2 :: rest =>
      rw [nlp_ws_cons c c2 rest _ h]
      have h1 : shlex_next ⟨c2 :: rest, if c = 10 then n + 1 else n⟩ =
          next_loop c2 ⟨rest,
            if c2 = 10 then (if c = 10 then n + 1 else n) + 1
            else if c = 10 then n + 1 else n⟩ := by
        unfold shlex_next
        unfold next_char
        simp
      rw [h1]

theorem shlex_next_cons (c : Nat) (bytes : List Nat) (n : Nat) :
    shlex_next ⟨c :: bytes, n⟩ =
      next_loop c ⟨bytes, if c = 10 then n + 1 else n⟩ := by
  unfold shlex_next
  unfold next_char
  simp

/-- The quoting function as the spec words it (spec.md section 4.7):
empty input gives the two double-quote characters; input free of the
metacharacter set is returned unchanged; otherwise the input is wrapped
in double quotes with a backslash inserted before each dollar, backtick,
double quote and backslash, all other bytes passing through. -/
def quoteSpec (s : List Nat) : List Nat :=
  if s = [] then
    [34, 34]
  else if s.all fun c => decide (c ∉ ([124, 38, 59, 60, 62, 40, 41, 36,
      96, 92, 34, 39, 32, 9, 13, 10, 42, 63, 91, 35, 126, 61,
      37] : List Nat)) then
    s
  else
    [34] ++
      (s.map fun c =>
        if c = 36 ∨ c = 96 ∨ c = 34 ∨ c = 92 then [92, c] else [c]).flatten
      ++ [34]

theorem quote_eq_quoteSpec (s : List Nat) : quote s = quoteSpec s := by
  by_cases hnil : s = []
  · subst hnil
    rfl
  · unfold quote quoteSpec
    rw [if_neg (by simpa using hnil), if_neg hnil]
    by_cases hmq : s.any mustQuote
    · have hall : (s.all fun c => decide (c ∉ ([124, 38, 59, 60, 62, 40,
          41, 36, 96, 92, 34, 39, 32, 9, 13, 10, 42, 63, 91, 35, 126, 61,
          37] : List Nat))) = false := by
        obtain ⟨c, hc, hcq⟩ := List.any_eq_true.mp hmq
        have hmem := (mustQuote_iff c).mp hcq
        rw [List.all_eq_false]
        refine ⟨c, hc, ?_⟩
        simp only [decide_eq_true_eq]
        exact fun hn => hn hmem
      rw [if_pos hmq, hall, if_neg Bool.false_ne_true, quote_fold]
      unfold escDouble
      simp [List.append_assoc]
    · have hall : (s.all fun c => decide (c ∉ ([124, 38, 59, 60, 62, 40,
          41, 36, 96, 92, 34, 39, 32, 9, 13, 10, 42, 63, 91, 35, 126, 61,
          37] : List Nat))) = true := by
        rw [List.all_eq_true]
        intro c hc
        have : ¬ mustQuote c = true := by
          intro hq
          exact hmq (List.any_eq_true.mpr ⟨c, hc, hq⟩)
        rw [mustQuote_iff] at this
        simp only [decide_eq_true_eq]
        exact this
      rw [if_neg hmq, hall, if_pos rfl]

/-! Concrete item streams, used to instantiate the stream-level claims. -/

theorem shlex_next_bs :
    shlex_next (Shlex.new [92]) =
      some (.error .EndOfStringBackslash, ⟨[], 1⟩) := by
  have h0 : shlex_next (Shlex.new [92]) = next_loop 92 ⟨[], 1⟩ := rfl
  rw [h0, nlp_word 92 _ (by decide) (by decide), pw_bs_nil]

theorem items_bs :
    items (Shlex.new [92]) = [.error .EndOfStringBackslash] := by
  rw [it_some shlex_next_bs, it_none (shlex_next_nil 1)]

theorem shlex_next_97 :
    shlex_next (Shlex.new [97]) = some (.ok [97], ⟨[], 1⟩) := by
  have h0 : shlex_next (Shlex.new [97]) = next_loop 97 ⟨[], 1⟩ := rfl
  rw [h0, nlp_word 97 _ (by decide) (by decide),
    pw_other_nil 97 1 [] (by decide) (by decide) (by decide) (by decide)]
  rfl

theorem items_97 : items (Shlex.new [97]) = [.ok [97]] := by
  rw [it_some shlex_next_97, it_none (shlex_next_nil 1)]

/-- `foo#bar` is a single word: a `#` after a word has begun is an
ordinary byte. -/
theorem split_foohash :
    split [102, 111, 111, 35, 98, 97, 114] =
      .ok [[102, 111, 111, 35, 98, 97, 114]] := by
  have hpw : parse_word 102 ⟨[111, 111, 35, 98, 97, 114], 1⟩ [] =
      (.ok ([] ++ 102 :: [111, 111, 35, 98, 97, 114]), ⟨[], 1⟩) :=
    pw_plain [111, 111, 35, 98, 97, 114] 102 [] 1 (by decide) (by decide)
  have hnx : shlex_next (Shlex.new [102, 111, 111, 35, 98, 97, 114]) =
      some (.ok [102, 111, 111, 35, 98, 97, 114], ⟨[], 1⟩) := by
    have h0 : shlex_next (Shlex.new [102, 111, 111, 35, 98, 97, 114]) =
        next_loop 102 ⟨[111, 111, 35, 98, 97, 114], 1⟩ := rfl
    rw [h0, nlp_word 102 _ (by decide) (by decide), hpw]
    rfl
  exact sg_ok_ok hnx (sg_none (shlex_next_nil 1))

/-! The claims. -/

/-- C1: for every word with no newline byte, splitting its quoted form
yields exactly that word as the single result; in particular `quote` of
the empty string is the two double-quote bytes and splitting those
yields the one-element list holding the empty word. -/
theorem claim_C1 :
    (∀ w : List Nat, 10 ∉ w → split (quote w) = .ok [w]) ∧
    quote [] = [34, 34] ∧
    split [34, 34] = .ok [[]] := by
  refine ⟨fun w _ => split_quote w, rfl, ?_⟩
  have h : quote [] = [34, 34] := rfl
  rw [← h]
  exact split_quote []

theorem claim_C1_witness :
    10 ∉ ([102, 111, 111] : List Nat) ∧
    split (quote [102, 111, 111]) = .ok [[102, 111, 111]] :=
  ⟨by decide, claim_C1.1 [102, 111, 111] (by decide)⟩

/-- C2: inside a single-quoted span a backslash followed by `'` or `\`
emits only the escaped byte, a backslash before any other byte emits
both bytes, a trailing backslash fails with `EndOfStringBackslash`, and
end-of-input without a closing `'` fails with `UnclosedSingleQuote`. -/
theorem claim_C2 :
    (∀ (c : Nat) (rest : List Nat) (n : Nat) (r : List Nat),
      parse_single ⟨92 :: c :: rest, n⟩ r =
        (if c = 39 ∨ c = 92 then
          parse_single ⟨rest, if c = 10 then n + 1 else n⟩ (r ++ [c])
        else
          parse_single ⟨rest, if c = 10 then n + 1 else n⟩ (r ++ [92, c]))) ∧
    (∀ (n : Nat) (r : List Nat),
      parse_single ⟨[92], n⟩ r = (.error .EndOfStringBackslash, ⟨[], n⟩)) ∧
    (∀ (n : Nat) (r : List Nat),
      parse_single ⟨[], n⟩ r = (.error .UnclosedSingleQuote, ⟨[], n⟩)) :=
  ⟨ps_bs_cons, ps_bs_nil, ps_nil⟩

/-- C3: `quote` is exactly the case split the spec states: `""` for the
empty input, the input unchanged when it has no metacharacter, and
otherwise the input wrapped in double quotes with a backslash inserted
before each of dollar, backtick, double quote and backslash. -/
theorem claim_C3 : ∀ s : List Nat, quote s = quoteSpec s :=
  fun s => quote_eq_quoteSpec s

/-- C4: inside a double-quoted span a backslash followed by `$`,
backtick, `"` or `\` emits only the escaped byte, backslash-newline
emits nothing, a backslash before any other byte emits both bytes, an
unescaped `"` closes the span successfully, a trailing backslash fails
with `EndOfStringBackslash` and end-of-input without a closing `"`
fails with `UnclosedDoubleQuote`. -/
theorem claim_C4 :
    (∀ (c : Nat) (rest : List Nat) (n : Nat) (r : List Nat),
      parse_double ⟨92 :: c :: rest, n⟩ r =
        (if c = 36 ∨ c = 96 ∨ c = 34 ∨ c = 92 then
          parse_double ⟨rest, if c = 10 then n + 1 else n⟩ (r ++ [c])
        else if c = 10 then
          parse_double ⟨rest, if c = 10 then n + 1 else n⟩ r
        else
          parse_double ⟨rest, if c = 10 then n + 1 else n⟩ (r ++ [92, c]))) ∧
    (∀ (rest : List Nat) (n : Nat) (r : List Nat),
      parse_double ⟨34 :: rest, n⟩ r = (.ok r, ⟨rest, n⟩)) ∧
    (∀ (n : Nat) (r : List Nat),
      parse_double ⟨[92], n⟩ r = (.error .EndOfStringBackslash, ⟨[], n⟩)) ∧
    (∀ (n : Nat) (r : List Nat),
      parse_double ⟨[], n⟩ r = (.error .UnclosedDoubleQuote, ⟨[], n⟩)) :=
  ⟨pd_bs_cons, pd_close, pd_bs_nil, pd_nil⟩

/-- C5: outside quotes, a backslash appends the following byte unless it
is a newline (elided), a backslash with nothing after it fails with
`EndOfStringBackslash`, and end-of-input after a handled byte ends the
word successfully. -/
theorem claim_C5 :
    (∀ (c c2 : Nat) (rest : List Nat) (n : Nat) (r : List Nat),
      parse_word 92 ⟨c :: c2 :: rest, n⟩ r =
        parse_word c2
          ⟨rest, if c2 = 10 then (if c = 10 then n + 1 else n) + 1
                 else if c = 10 then n + 1 else n⟩
          (if c = 10 then r else r ++ [c])) ∧
    (∀ (c n : Nat) (r : List Nat),
      parse_word 92 ⟨[c], n⟩ r =
        (.ok (if c = 10 then r else r ++ [c]),
          ⟨[], if c = 10 then n + 1 else n⟩)) ∧
    (∀ (n : Nat) (r : List Nat),
      parse_word 92 ⟨[], n⟩ r = (.error .EndOfStringBackslash, ⟨[], n⟩)) ∧
    (∀ (ch n : Nat) (r : List Nat), ch ≠ 34 → ch ≠ 39 → ch ≠ 92 →
      ¬(ch = 32 ∨ ch = 9 ∨ ch = 10) →
      parse_word ch ⟨[], n⟩ r = (.ok (r ++ [ch]), ⟨[], n⟩)) :=
  ⟨pw_bs_cons, pw_bs_one, pw_bs_nil,
    fun ch n r h1 h2 h3 h4 => pw_other_nil ch n r h1 h2 h3 h4⟩

theorem claim_C5_witness :
    ((120 : Nat) ≠ 34 ∧ (120 : Nat) ≠ 39 ∧ (120 : Nat) ≠ 92 ∧
      ¬((120 : Nat) = 32 ∨ (120 : Nat) = 9 ∨ (120 : Nat) = 10)) ∧
    parse_word 120 ⟨[], 1⟩ [] = (.ok [120], ⟨[], 1⟩) :=
  ⟨⟨by decide, by decide, by decide, by decide⟩,
    claim_C5.2.2.2 120 1 [] (by decide) (by decide) (by decide) (by decide)⟩

/-- C6: each pull skips leading whitespace bytes and comment spans (a
`#` consumes through the next newline, or everything when there is
none), ends the stream cleanly when the skipping reaches end-of-input,
and a `#` inside a word is an ordinary byte (`foo#bar` is one word). -/
theorem claim_C6 :
    (∀ (c : Nat) (bytes : List Nat) (n : Nat), c = 32 ∨ c = 9 ∨ c = 10 →
      shlex_next ⟨c :: bytes, n⟩ =
        shlex_next ⟨bytes, if c = 10 then n + 1 else n⟩) ∧
    (∀ (pre rest : List Nat) (n : Nat), 10 ∉ pre →
      shlex_next ⟨35 :: (pre ++ 10 :: rest), n⟩ = shlex_next ⟨rest, n + 1⟩) ∧
    (∀ (pre : List Nat) (n : Nat), 10 ∉ pre →
      shlex_next ⟨35 :: pre, n⟩ = none) ∧
    split [102, 111, 111, 35, 98, 97, 114] =
      .ok [[102, 111, 111, 35, 98, 97, 114]] := by
  refine ⟨shlex_next_ws, ?_, ?_, split_foohash⟩
  · intro pre rest n hpre
    rw [shlex_next_cons, if_neg (by decide)]
    have hsc := sc_to_nl pre rest n hpre
    match rest with
    | [] =>
        rw [nlp_hash_nil _ _ hsc, shlex_next_nil]
    | c2 :: rest2 =>
        rw [nlp_hash_cons _ c2 rest2 _ hsc, shlex_next_cons]
  · intro pre n hpre
    rw [shlex_next_cons, if_neg (by decide)]
    exact nlp_hash_nil _ _ (sc_no_nl pre n hpre)

theorem claim_C6_witness :
    ((32 : Nat) = 32 ∨ (32 : Nat) = 9 ∨ (32 : Nat) = 10) ∧
    shlex_next ⟨32 :: [97], 1⟩ = shlex_next ⟨[97], 1⟩ ∧
    10 ∉ ([120] : List Nat) ∧
    shlex_next ⟨35 :: ([120] ++ 10 :: [97]), 1⟩ = shlex_next ⟨[97], 1 + 1⟩ := by
  refine ⟨by decide, ?_, by decide, claim_C6.2.1 [120] [97] 1 (by decide)⟩
  exact claim_C6.1 32 [97] 1 (by decide)

/-- C7: `split` has fail-fast collection semantics over the word stream:
if the items are all Ok it returns all their words in order, and if an
error item appears after some Ok items it returns that first error with
no partial list. -/
theorem claim_C7 :
    ∀ inp : List Nat,
      ((∀ r ∈ items (Shlex.new inp), ∃ w, r = .ok w) →
        split inp = .ok (okItems (items (Shlex.new inp)))) ∧
      (∀ (pre : List (Except Err (List Nat))) (e : Err)
          (post : List (Except Err (List Nat))),
        items (Shlex.new inp) = pre ++ .error e :: post →
        (∀ r ∈ pre, ∃ w, r = .ok w) →
        split inp = .error e) := by
  intro inp
  constructor
  · intro hall
    exact split_go_all_ok_aux (Shlex.new inp).in_iter.length _
      (Nat.le_refl _) hall
  · intro pre e post h hpre
    exact split_go_first_err_aux (Shlex.new inp).in_iter.length _
      (Nat.le_refl _) pre e post h hpre

theorem claim_C7_witness :
    split [97] = .ok [[97]] ∧ split [92] = .error .EndOfStringBackslash := by
  constructor
  · have h := (claim_C7 [97]).1 (by
      rw [items_97]
      intro r hr
      simp only [List.mem_singleton] at hr
      exact ⟨[97], hr⟩)
    rw [items_97] at h
    exact h
  · exact (claim_C7 [92]).2 [] .EndOfStringBackslash []
      (by rw [items_bs]; rfl) (by simp)

/-- C8: the line counter starts at 1, is bumped by the byte-consumption
primitive exactly when the returned byte is a newline, and therefore
always reads 1 plus the number of newline bytes in the consumed
prefix. -/
theorem claim_C8 :
    (∀ inp : List Nat,
      (Shlex.new inp).line_no = 1 + List.count 10 ([] : List Nat)) ∧
    (∀ (s : Shlex) (c : Nat) (s1 : Shlex), next_char s = some (c, s1) →
      s.in_iter = c :: s1.in_iter ∧
      s1.line_no = s.line_no + (if c = 10 then 1 else 0)) ∧
    (∀ (consumed rest : List Nat) (c : Nat) (s1 : Shlex),
      next_char ⟨rest, 1 + consumed.count 10⟩ = some (c, s1) →
      s1.line_no = 1 + (consumed ++ [c]).count 10) := by
  refine ⟨fun _ => rfl, ?_, ?_⟩
  · intro s c s1 h
    unfold next_char at h
    cases hs : s.in_iter with
    | nil => rw [hs] at h; cases h
    | cons a rest =>
        rw [hs] at h
        simp only [Option.some.injEq, Prod.mk.injEq] at h
        obtain ⟨hc, hs1⟩ := h
        refine ⟨?_, ?_⟩
        · rw [← hs1, ← hc]
        · rw [← hs1, ← hc]
          by_cases h10 : a = 10 <;> simp [h10]
  · intro consumed rest c s1 h
    unfold next_char at h
    cases rest with
    | nil => cases h
    | cons a rest2 =>
        simp only [Option.some.injEq, Prod.mk.injEq] at h
        obtain ⟨hc, hs1⟩ := h
        rw [← hs1, ← hc]
        simp only [List.count_append, List.count_cons, List.count_nil]
        by_cases h10 : a = 10
        · simp only [h10, if_pos rfl]
          simp
          omega
        · simp only [if_neg h10]
          have : ¬(10 = a) := fun hx => h10 hx.symm
          simp [this, h10]

theorem claim_C8_witness :
    next_char ⟨[10, 65], 2⟩ = some (10, ⟨[65], 3⟩) ∧
    (⟨[65], 3⟩ : Shlex).line_no = 1 + (([10] : List Nat) ++ [10]).count 10 :=
  ⟨by decide, claim_C8.2.2 [10] [10, 65] 10 ⟨[65], 3⟩ (by decide)⟩

/-- C9: the word stream is over after an error item: whenever the item
sequence contains an error, nothing follows it, so no pull after the
first error yields an Ok item. -/
theorem claim_C9 :
    ∀ (inp : List Nat) (pre : List (Except Err (List Nat))) (e : Err)
      (post : List (Except Err (List Nat))),
      items (Shlex.new inp) = pre ++ .error e :: post → post = [] := by
  intro inp pre e post h
  exact items_err_last_aux (Shlex.new inp).in_iter.length _
    (Nat.le_refl _) pre e post h

theorem claim_C9_witness :
    items (Shlex.new [92]) =
      [] ++ .error .EndOfStringBackslash ::
        ([] : List (Except Err (List Nat))) ∧
    ([] : List (Except Err (List Nat))) = [] :=
  ⟨by rw [items_bs]; rfl, claim_C9 [92] [] .EndOfStringBackslash []
    (by rw [items_bs]; rfl)⟩

/-- C10: the quote-then-split round trip holds for every byte string,
newlines and carriage returns included, because `quote` wraps anything
containing a metacharacter in double quotes and the double-quote
sub-parser passes a bare newline through unchanged. -/
theorem claim_C10 : ∀ w : List Nat, split (quote w) = .ok [w] :=
  fun w => split_quote w

end Shlex4
